import Mathlib

/-
Verification of the query-evaluation engine of an information-retrieval system
(QueryProcessor.py): boolean/proximity/phrase expression evaluation over a
positional inverted index, TF-IDF ranking, and result truncation.

Queries are modelled as lists of characters; the Python string operations used
by the source (`in`, `split`, `split(sep, 1)`, `strip`, `re.sub`) are embedded
as executable functions on `List Char`.  The index-access facade and the
preprocessor are external collaborators of the source file and are modelled
abstractly from the spec's interface section.
-/

namespace IRQP

/-- Character strings of the embedded program. -/
abbrev Str := List Char

/-- Boolean test that `p` is a leading segment of `s`. -/
def pfx : Str → Str → Bool
  | [], _ => true
  | _ :: _, [] => false
  | a :: as, b :: bs => a == b && pfx as bs

/-- Split at the first occurrence of `pat`: returns the text before and the
text after that occurrence, or `none` when `pat` does not occur.  This embeds
Python's `s.split(pat, 1)` (with two pieces) and, via `Option.isSome`, the
`pat in s` test. -/
def splitFirst (pat : Str) : Str → Option (Str × Str)
  | [] => if pfx pat [] then some ([], ([] : Str).drop pat.length) else none
  | c :: rest =>
    if pfx pat (c :: rest) then some ([], (c :: rest).drop pat.length)
    else (splitFirst pat rest).map fun p => (c :: p.1, p.2)

/-- Embeds Python's substring test `pat in s`. -/
def containsSub (pat s : Str) : Bool := (splitFirst pat s).isSome

/-- Fueled worker for `splitAll`; the fuel only bounds the recursion depth. -/
def splitAllFuel (pat : Str) : Nat → Str → List Str
  | 0, s => [s]
  | fuel + 1, s =>
    match splitFirst pat s with
    | none => [s]
    | some (b, a) => b :: splitAllFuel pat fuel a

/-- Embeds Python's `s.split(pat)` for a non-empty separator: one split per
occurrence, left to right.  A fuel of `s.length + 1` always suffices because
each occurrence consumes at least one character. -/
def splitAll (pat s : Str) : List Str := splitAllFuel pat (s.length + 1) s

/-- Whitespace characters removed by Python's `str.strip()`. -/
def isPyWs (c : Char) : Bool :=
  c == ' ' || c == '\t' || c == '\n' || c == '\r' || c == '\x0b' || c == '\x0c'

/-- Embeds Python's `s.strip()`. -/
def strip (s : Str) : Str :=
  ((s.dropWhile isPyWs).reverse.dropWhile isPyWs).reverse

/-- Lookup of a document id in an association list of postings; embeds the
Python dictionary access `dict[document]`. -/
def alookup (d : Nat) : List (Nat × List Int) → Option (List Int)
  | [] => none
  | e :: rest => if e.1 = d then some e.2 else alookup d rest

/-- Value of a digit string, embedding Python's `int` on the digit characters
that `re.sub('[^0-9]+', '', s)` keeps. -/
def natOfDigits (s : Str) : Nat :=
  s.foldl (fun n c => 10 * n + (c.toNat - 48)) 0

/-- Literal `" AND "` of the source. -/
def andLit : Str := [' ', 'A', 'N', 'D', ' ']

/-- Literal `" OR "` of the source. -/
def orLit : Str := [' ', 'O', 'R', ' ']

/-- Literal `"NOT"` of the source. -/
def notLit : Str := ['N', 'O', 'T']

/-- Literal `" NOT "` used to build simple complement expressions in
statements. -/
def sepNot : Str := [' ', 'N', 'O', 'T', ' ']

/-- Builder for multi-operand queries in statements: operands joined by a
separator literal. -/
def joinSep (sep : Str) : List Str → Str
  | [] => []
  | [w] => w
  | w :: rest => w ++ sep ++ joinSep sep rest

/-- Modelled from the spec: the Preprocessor collaborator (module
`Preprocessor`, imported by the source but not part of it).  Its operations
are opaque string transformers: case folding, tokenization, Porter stemming
and the stop-word test. -/
structure Preprocessor where
  toLowerCase : Str → Str
  tokenize : Str → List Str
  stemWordPorter : Str → Str
  isNotAStopword : Str → Bool

/-- State of a `QueryProcessor` object.  The field `postingsOf` is modelled
from the spec: it is the Index Access Facade (module `InvertedIndex`,
imported by the source but not part of it), giving for a stemmed term the
association list from document id to its ordered position list; an unknown
term maps to the empty list.  `docIDSet` and `collectionSize` are the fields
of the same names of the source class. -/
structure QueryProcessor where
  ppr : Preprocessor
  postingsOf : Str → List (Nat × List Int)
  docIDSet : Finset Nat
  collectionSize : Nat

/-- Embeds `InvertedIndex.getTermDocumentDictionary` through the facade. -/
def getTermDocumentDictionary (qp : QueryProcessor) (t : Str) : List (Nat × List Int) :=
  qp.postingsOf t

/-- Embeds `InvertedIndex.getTermDocumentSet` through the facade: the set of
document ids of the term's postings. -/
def getTermDocumentSet (qp : QueryProcessor) (t : Str) : Finset Nat :=
  ((qp.postingsOf t).map Prod.fst).toFinset

/-- Embeds `QueryProcessor.preprocessedTerm`: strip, lower-case, stem. -/
def preprocessedTerm (qp : QueryProcessor) (word : Str) : Str :=
  qp.ppr.stemWordPorter (qp.ppr.toLowerCase (strip word))

/-- One run of the linear-merge `while` loop of `proximityHandler` on the two
position lists of a candidate document.  `i`, `j` are the two pointers; the
fuel counts remaining iterations.  `some true` models exit with a recorded
match, `some false` exit via the `notOutOfBounds` flag; `none` models the two
situations the source never reports as a result: an out-of-bounds list access
(a Python `IndexError`) or an unfinished loop. -/
def proxLoop (isPhrase : Bool) (distance : Nat) (l1 l2 : List Int) :
    Nat → Nat → Nat → Option Bool
  | 0, _, _ => none
  | fuel + 1, i, j =>
    match l1.get? i, l2.get? j with
    | some p1, some p2 =>
      let condition : Bool := if isPhrase then decide (p1 - p2 ≤ 0) else true
      if (p1 - p2).natAbs ≤ distance ∧ condition = true then some true
      else if p1 < p2 ∧ i < l1.length - 1 then
        proxLoop isPhrase distance l1 l2 fuel (i + 1) j
      else if p2 ≤ p1 ∧ j < l2.length - 1 then
        proxLoop isPhrase distance l1 l2 fuel i (j + 1)
      else some false
    | _, _ => none

/-- Body of `proximityHandler` after term extraction: fetch both postings
dictionaries, restrict to the intersection of their key sets, and keep the
documents whose linear merge records a match. -/
def proximityMerge (qp : QueryProcessor) (term1 term2 : Str) (distance : Nat)
    (isPhrase : Bool) : Finset Nat :=
  let dict1 := getTermDocumentDictionary qp (preprocessedTerm qp term1)
  let dict2 := getTermDocumentDictionary qp (preprocessedTerm qp term2)
  let inter := ((dict1.map Prod.fst).toFinset ∩ (dict2.map Prod.fst).toFinset)
  inter.filter fun document =>
    let currentDocumentList1 := (alookup document dict1).getD []
    let currentDocumentList2 := (alookup document dict2).getD []
    proxLoop isPhrase distance currentDocumentList1 currentDocumentList2
      (currentDocumentList1.length + currentDocumentList2.length + 1) 0 0 = some true

/-- Embeds `QueryProcessor.proximityHandler`: read the two comma-separated
terms (only the first two fields are ever read) and run the merge. -/
def proximityHandler (qp : QueryProcessor) (proximityQuery : Str) (distance : Nat)
    (isPhrase : Bool) : Finset Nat :=
  let termPair := splitAll [','] proximityQuery
  let term1 := strip ((termPair[0]?).getD [])
  let term2 := strip ((termPair[1]?).getD [])
  proximityMerge qp term1 term2 distance isPhrase

/-- Embeds `QueryProcessor.phraseHandler`: drop the quote characters, turn
spaces into commas, and delegate with distance 1 and `isPhrase = true`. -/
def phraseHandler (qp : QueryProcessor) (phraseQuery : Str) : Finset Nat :=
  let termsWithoutQuotes := phraseQuery.filter fun c => c != '"'
  let termsCommaSeparated := termsWithoutQuotes.map fun c => if c = ' ' then ',' else c
  proximityHandler qp termsCommaSeparated 1 true

/-- Embeds `QueryProcessor.simpleExpressionHandler`. -/
def simpleExpressionHandler (qp : QueryProcessor) (singleExpression : Str) : Finset Nat :=
  if containsSub notLit singleExpression then
    let standaloneTerm := strip (((splitFirst notLit singleExpression).map Prod.snd).getD [])
    let termDocumentSet :=
      if containsSub ['"'] standaloneTerm then phraseHandler qp standaloneTerm
      else getTermDocumentSet qp (preprocessedTerm qp standaloneTerm)
    qp.docIDSet \ termDocumentSet
  else if containsSub ['"'] singleExpression then
    phraseHandler qp singleExpression
  else
    getTermDocumentSet qp (preprocessedTerm qp singleExpression)

/-- Embeds `QueryProcessor.complexExpressionHandler`.  The source indexes
`expressionSets[0]` and `expressionSets[1]`, which exist whenever the guard
of the branch holds; the `getD ∅` default is unreachable there. -/
def complexExpressionHandler (qp : QueryProcessor) (query : Str) : Finset Nat :=
  if containsSub andLit query then
    let expressionSets := (splitAll andLit query).map fun e => simpleExpressionHandler qp (strip e)
    ((expressionSets[0]?).getD ∅) ∩ ((expressionSets[1]?).getD ∅)
  else if containsSub orLit query then
    let expressionSets := (splitAll orLit query).map fun e => simpleExpressionHandler qp (strip e)
    ((expressionSets[0]?).getD ∅) ∪ ((expressionSets[1]?).getD ∅)
  else if containsSub ['#'] query then
    let tempList := splitAll ['('] query
    let distance := natOfDigits (((tempList[0]?).getD []).filter Char.isDigit)
    let termPair := (((splitAll [')'] ((tempList[1]?).getD []))[0]?).getD [])
    proximityHandler qp termPair distance false
  else simpleExpressionHandler qp query

/-- A Python dictionary from document id to running score: its key set
together with the stored values (the valuation is 0 outside the key set,
matching the initial absence of a key). -/
structure ScoreMap where
  support : Finset Nat
  score : Nat → ℝ

/-- The partial score the source adds for one posting entry:
`(1.0 + np.log10(tf)) * np.log10(collectionSize / df)`.  The source runs
under Python 2, so `collectionSize / df` is integer floor division. -/
noncomputable def tfWeight (collectionSize dfLen tfLen : Nat) : ℝ :=
  (1 + Real.logb 10 (tfLen : ℝ)) * Real.logb 10 ((collectionSize / dfLen : Nat) : ℝ)

/-- Embeds the dictionary update of `calculateTFIDF`: initialize the score of
a first-touched document, otherwise add to it. -/
noncomputable def scoreInsert (sc : ScoreMap) (doc : Nat) (w : ℝ) : ScoreMap :=
  if doc ∈ sc.support then
    ⟨sc.support, fun d => if d = doc then sc.score d + w else sc.score d⟩
  else
    ⟨insert doc sc.support, fun d => if d = doc then w else sc.score d⟩

/-- Embeds one iteration of the outer token loop of
`QueryProcessor.calculateTFIDF`. -/
noncomputable def tfidfTermStep (qp : QueryProcessor) (acc : ScoreMap) (term : Str) : ScoreMap :=
  let termStemmed := qp.ppr.stemWordPorter term
  if 0 < term.length ∧ qp.ppr.isNotAStopword term = true then
    let termDictionary := getTermDocumentDictionary qp termStemmed
    if termDictionary.length = 0 then acc
    else
      termDictionary.foldl
        (fun sc entry =>
          scoreInsert sc entry.1 (tfWeight qp.collectionSize termDictionary.length entry.2.length))
        acc
  else acc

/-- Embeds `QueryProcessor.calculateTFIDF`. -/
noncomputable def calculateTFIDF (qp : QueryProcessor) (query : Str) : ScoreMap :=
  (qp.ppr.tokenize (qp.ppr.toLowerCase query)).foldl (tfidfTermStep qp) ⟨∅, fun _ => 0⟩

/-- Spec-side closed form, stated for comparison with `calculateTFIDF`:
a query token contributes when it is non-empty, not a stop-word, and its
stemmed form has a non-empty postings dictionary. -/
def termQualifies (qp : QueryProcessor) (t : Str) : Prop :=
  0 < t.length ∧ qp.ppr.isNotAStopword t = true ∧ qp.postingsOf (qp.ppr.stemWordPorter t) ≠ []

instance (qp : QueryProcessor) (t : Str) : Decidable (termQualifies qp t) := by
  unfold termQualifies; infer_instance

/-- Spec-side closed form: the documents a query token touches. -/
def docsOf (qp : QueryProcessor) (t : Str) : Finset Nat :=
  ((qp.postingsOf (qp.ppr.stemWordPorter t)).map Prod.fst).toFinset

/-- Spec-side closed form of one token's contribution to one document's
score, for comparison with the accumulation loop of `calculateTFIDF`. -/
noncomputable def specContribution (qp : QueryProcessor) (t : Str) (d : Nat) : ℝ :=
  if termQualifies qp t ∧ d ∈ docsOf qp t then
    tfWeight qp.collectionSize (qp.postingsOf (qp.ppr.stemWordPorter t)).length
      ((alookup d (qp.postingsOf (qp.ppr.stemWordPorter t))).getD []).length
  else 0

/-- Embeds the `enumerate` loops of both result writers: emit entries while
the counter has not reached 999, and `break` when it does. -/
def emitCapped {α : Type} : Nat → List α → List α
  | _, [] => []
  | counter, x :: rest => if counter = 999 then [] else x :: emitCapped (counter + 1) rest

/-- Embeds the per-query entry lines of `writeBooleanResultsToFile`:
document ids in ascending order, cut off by the counter check. -/
def writeBooleanEntries (v : Finset Nat) : List Nat :=
  emitCapped 0 (v.sort (· ≤ ·))

/-- Embeds `sorted(v.items(), key=..., reverse=True)` of the TF-IDF writer:
a stable sort of the score entries by descending score. -/
noncomputable def sortTFIDFDesc (items : List (Nat × ℝ)) : List (Nat × ℝ) :=
  items.mergeSort fun a b => decide (b.2 ≤ a.2)

/-- Embeds the per-query entry lines of `writeTFIDFResultsToFile`. -/
noncomputable def writeTFIDFEntries (items : List (Nat × ℝ)) : List (Nat × ℝ) :=
  emitCapped 0 (sortTFIDFDesc items)

/-- Identity-like preprocessor used for concrete instantiations. -/
def pprId : Preprocessor :=
  ⟨fun s => s, fun s => [s], fun s => s, fun _ => true⟩

/-- Concrete processor state for instantiations: term `cat` occurs in
document 1 at position 3 and document 2 at position 10, term `dog` in
document 1 at position 4, term `u` in document 3 at position 1. -/
def qpW : QueryProcessor where
  ppr := pprId
  postingsOf := fun t =>
    if t = ['c', 'a', 't'] then [(1, [3]), (2, [10])]
    else if t = ['d', 'o', 'g'] then [(1, [4])]
    else if t = ['u'] then [(3, [1])]
    else []
  docIDSet := {1, 2, 3}
  collectionSize := 3

/-- Preprocessor whose tokenizer sends the query `a` to the single token `z`
and every other query to no tokens. -/
def pprW7 : Preprocessor :=
  ⟨fun s => s, fun s => if s = ['a'] then [['z']] else [], fun s => s, fun _ => true⟩

/-- Processor state combining `pprW7` with the index of `qpW`; the term `z`
is absent from the index. -/
def qpW7 : QueryProcessor where
  ppr := pprW7
  postingsOf := qpW.postingsOf
  docIDSet := {1, 2, 3}
  collectionSize := 3

/-! ### String-operation lemmas -/

@[simp] lemma pfx_nil (s : Str) : pfx [] s = true := by cases s <;> rfl

lemma pfx_cons_false {a c : Char} {as s : Str} (h : a ≠ c) :
    pfx (a :: as) (c :: s) = false := by
  simp [pfx, h]

lemma pfx_nil_right {pat : Str} (h : pfx pat [] = true) : pat = [] := by
  cases pat with
  | nil => rfl
  | cons a as => simp [pfx] at h

lemma pfx_subset {p s : Str} (h : pfx p s = true) : ∀ c ∈ p, c ∈ s := by
  induction p generalizing s with
  | nil => intro c hc; simp at hc
  | cons a as ih =>
    cases s with
    | nil => simp [pfx] at h
    | cons b bs =>
      simp only [pfx, Bool.and_eq_true, beq_iff_eq] at h
      intro c hc
      rcases List.mem_cons.mp hc with rfl | hc
      · exact h.1 ▸ List.mem_cons_self _ _
      · exact List.mem_cons_of_mem _ (ih h.2 c hc)

lemma pfx_append (p s : Str) : pfx p (p ++ s) = true := by
  induction p with
  | nil => simp
  | cons a as ih => simp [pfx, ih]

lemma pfx_eq_append {p s : Str} (h : pfx p s = true) : s = p ++ s.drop p.length := by
  induction p generalizing s with
  | nil => simp
  | cons a as ih =>
    cases s with
    | nil => simp [pfx] at h
    | cons b bs =>
      simp only [pfx, Bool.and_eq_true, beq_iff_eq] at h
      obtain ⟨rfl, h2⟩ := h
      simpa using ih h2

lemma splitFirst_pos {pat s : Str} (h : pfx pat s = true) :
    splitFirst pat s = some ([], s.drop pat.length) := by
  cases s <;> simp [splitFirst, h]

lemma splitFirst_cons_neg {pat : Str} {c : Char} {s : Str} (h : pfx pat (c :: s) = false) :
    splitFirst pat (c :: s) = (splitFirst pat s).map fun p => (c :: p.1, p.2) := by
  simp [splitFirst, h]

lemma splitFirst_nil_pat (s : Str) : splitFirst ([] : Str) s = some ([], s) := by
  cases s <;> simp [splitFirst, pfx]

lemma splitFirst_some_eq {pat : Str} : ∀ {s b a : Str},
    splitFirst pat s = some (b, a) → s = b ++ pat ++ a := by
  intro s
  induction s with
  | nil =>
    intro b a h
    by_cases hp : pfx pat ([] : Str) = true
    · have hpat : pat = [] := pfx_nil_right hp
      subst hpat
      rw [splitFirst_nil_pat] at h
      simp only [Option.some.injEq, Prod.mk.injEq] at h
      obtain ⟨h1, h2⟩ := h
      simp [← h1, ← h2]
    · simp [splitFirst, hp] at h
  | cons c rest ih =>
    intro b a h
    by_cases hp : pfx pat (c :: rest) = true
    · rw [splitFirst_pos hp] at h
      simp only [Option.some.injEq, Prod.mk.injEq] at h
      obtain ⟨h1, h2⟩ := h
      subst h1
      rw [← h2]
      simpa using pfx_eq_append hp
    · rw [splitFirst_cons_neg (by simpa using hp)] at h
      cases hsf : splitFirst pat rest with
      | none =>
        rw [hsf] at h
        exact Option.noConfusion h
      | some p =>
        rw [hsf] at h
        obtain ⟨p1, p2⟩ := p
        have h' : c :: p1 = b ∧ p2 = a := by simpa using h
        obtain ⟨hb, ha2⟩ := h'
        subst hb
        subst ha2
        simp [ih hsf]

lemma splitFirst_none_of_not_mem {x : Char} {p' s : Str} (hx : x ∉ s) :
    splitFirst (x :: p') s = none := by
  induction s with
  | nil => simp [splitFirst, pfx]
  | cons c rest ih =>
    have hxc : x ≠ c := fun h => hx (h ▸ List.mem_cons_self _ _)
    rw [splitFirst_cons_neg (pfx_cons_false hxc)]
    rw [ih fun h => hx (List.mem_cons_of_mem _ h)]
    rfl

lemma splitFirst_append_pat {x : Char} {p' A B : Str} (hA : x ∉ A) :
    splitFirst (x :: p') (A ++ (x :: p') ++ B) = some (A, B) := by
  induction A with
  | nil =>
    simp only [List.nil_append]
    rw [splitFirst_pos (pfx_append _ _)]
    simp [List.drop_left]
  | cons c A' ih =>
    have hxc : x ≠ c := fun h => hA (h ▸ List.mem_cons_self _ _)
    have : ((c :: A') ++ (x :: p') ++ B) = c :: (A' ++ (x :: p') ++ B) := by simp
    rw [this, splitFirst_cons_neg (pfx_cons_false hxc),
      ih fun h => hA (List.mem_cons_of_mem _ h)]
    rfl

lemma containsSub_of_splitFirst {pat s b a : Str} (h : splitFirst pat s = some (b, a)) :
    containsSub pat s = true := by
  simp [containsSub, h]

lemma containsSub_cons (pat : Str) (c : Char) (s : Str) :
    containsSub pat (c :: s) = (pfx pat (c :: s) || containsSub pat s) := by
  by_cases h : pfx pat (c :: s) = true
  · simp [containsSub, splitFirst_pos h, h]
  · rw [containsSub, splitFirst_cons_neg (by simpa using h)]
    simp [containsSub, h]

lemma containsSub_subset {pat s : Str} (h : containsSub pat s = true) :
    ∀ c ∈ pat, c ∈ s := by
  rw [containsSub, Option.isSome_iff_exists] at h
  obtain ⟨⟨b, a⟩, hba⟩ := h
  have := splitFirst_some_eq hba
  subst this
  intro c hc
  simp [hc]

lemma containsSub_false_of_not_mem {pat s : Str} {x : Char} (hx : x ∈ pat) (hs : x ∉ s) :
    containsSub pat s = false := by
  rcases hb : containsSub pat s with _ | _
  · rfl
  · exact absurd (containsSub_subset hb x hx) hs

lemma containsSub_append_left {x : Char} {p' A s : Str} (hA : x ∉ A) :
    containsSub (x :: p') (A ++ s) = containsSub (x :: p') s := by
  induction A with
  | nil => simp
  | cons c A' ih =>
    have hxc : x ≠ c := fun h => hA (h ▸ List.mem_cons_self _ _)
    have step : ((c :: A') ++ s) = c :: (A' ++ s) := by simp
    rw [step, containsSub_cons, pfx_cons_false hxc, Bool.false_or,
      ih fun h => hA (List.mem_cons_of_mem _ h)]

/-! ### Lemmas about `splitAll`, `strip` and list access -/

lemma splitAllFuel_of_none {pat s : Str} (h : splitFirst pat s = none) :
    ∀ fuel, splitAllFuel pat fuel s = [s] := by
  intro fuel
  cases fuel with
  | zero => rfl
  | succ n => simp [splitAllFuel, h]

lemma splitAll_of_none {pat s : Str} (h : splitFirst pat s = none) :
    splitAll pat s = [s] :=
  splitAllFuel_of_none h _

lemma splitAll_field0 {pat s b a : Str} (h : splitFirst pat s = some (b, a)) :
    (splitAll pat s)[0]? = some b := by
  simp [splitAll, splitAllFuel, h]

lemma splitAll_field1_none {pat s b a : Str} (h : splitFirst pat s = some (b, a))
    (h2 : splitFirst pat a = none) : (splitAll pat s)[1]? = some a := by
  have hpat : pat ≠ [] := by
    intro hp
    subst hp
    rw [splitFirst_nil_pat] at h2
    exact Option.noConfusion h2
  have hlen : 1 ≤ s.length := by
    have hseq := splitFirst_some_eq h
    subst hseq
    rcases pat with _ | _
    · exact absurd rfl hpat
    · simp
      omega
  rw [splitAll]
  simp only [splitAllFuel, h]
  obtain ⟨n, hn⟩ : ∃ n, s.length = n + 1 := ⟨s.length - 1, by omega⟩
  rw [hn, splitAllFuel_of_none h2]
  rfl

lemma splitAll_field1_some {pat s b a b2 a2 : Str} (hpat : pat ≠ [])
    (h : splitFirst pat s = some (b, a)) (h2 : splitFirst pat a = some (b2, a2)) :
    (splitAll pat s)[1]? = some b2 := by
  have hlen : a.length < s.length := by
    have := splitFirst_some_eq h
    subst this
    rcases pat with _ | _
    · exact absurd rfl hpat
    · simp; omega
  rw [splitAll]
  simp only [splitAllFuel, h]
  obtain ⟨n, hn⟩ : ∃ n, s.length = n + 1 := ⟨s.length - 1, by omega⟩
  rw [hn]
  simp [splitAllFuel, h2]

lemma dropWhile_eq_self_of_all {p : Char → Bool} {l : Str} (h : ∀ c ∈ l, p c = false) :
    l.dropWhile p = l := by
  cases l with
  | nil => rfl
  | cons c rest => simp [List.dropWhile_cons, h c (List.mem_cons_self _ _)]

lemma strip_of_plain {s : Str} (h : ∀ c ∈ s, isPyWs c = false) : strip s = s := by
  rw [strip, dropWhile_eq_self_of_all h,
    dropWhile_eq_self_of_all (fun c hc => h c (List.mem_reverse.mp hc)), List.reverse_reverse]

lemma strip_space_cons {B : Str} (hB : ∀ c ∈ B, isPyWs c = false) : strip (' ' :: B) = B := by
  rw [strip]
  have h1 : (' ' :: B).dropWhile isPyWs = B.dropWhile isPyWs := by
    simp [List.dropWhile_cons, isPyWs]
  rw [h1, dropWhile_eq_self_of_all hB,
    dropWhile_eq_self_of_all (fun c hc => hB c (List.mem_reverse.mp hc)), List.reverse_reverse]

lemma get?_mem {α : Type} {l : List α} {n : Nat} {a : α} (h : l.get? n = some a) : a ∈ l := by
  induction l generalizing n with
  | nil => simp [List.get?] at h
  | cons x xs ih =>
    cases n with
    | zero => simp_all [List.get?]
    | succ m => exact List.mem_cons_of_mem _ (ih h)

lemma get?_lt {α : Type} {l : List α} {n : Nat} (h : n < l.length) :
    ∃ a, l.get? n = some a := by
  induction l generalizing n with
  | nil => simp at h
  | cons x xs ih =>
    cases n with
    | zero => exact ⟨x, rfl⟩
    | succ m => exact ih (by simpa using h)

lemma mem_get? {α : Type} {l : List α} {a : α} (h : a ∈ l) :
    ∃ n, l.get? n = some a := by
  induction l with
  | nil => simp at h
  | cons x xs ih =>
    rcases List.mem_cons.mp h with rfl | h
    · exact ⟨0, rfl⟩
    · obtain ⟨n, hn⟩ := ih h
      exact ⟨n + 1, hn⟩

lemma sorted_get?_mono {l : List Int} (hs : l.Sorted (· < ·)) :
    ∀ {i j : Nat} {a b : Int}, i ≤ j → l.get? i = some a → l.get? j = some b → a ≤ b := by
  induction l with
  | nil => intro i j a b _ ha; simp [List.get?] at ha
  | cons x xs ih =>
    intro i j a b hij ha hb
    obtain ⟨hx, hxs⟩ := List.sorted_cons.mp hs
    cases i with
    | zero =>
      cases j with
      | zero =>
        simp only [List.get?, Option.some.injEq] at ha hb
        omega
      | succ m =>
        simp only [List.get?, Option.some.injEq] at ha hb
        subst ha
        exact le_of_lt (hx b (get?_mem hb))
    | succ n =>
      cases j with
      | zero => omega
      | succ m => exact ih hxs (by omega) ha hb

lemma get?_lt_length {α : Type} {l : List α} {n : Nat} {a : α} (h : l.get? n = some a) :
    n < l.length := by
  induction l generalizing n with
  | nil => simp [List.get?] at h
  | cons x xs ih =>
    cases n with
    | zero => simp
    | succ m => exact Nat.succ_lt_succ (ih h)

lemma alookup_mem {d : Nat} {l : List (Nat × List Int)} {v : List Int}
    (h : alookup d l = some v) : (d, v) ∈ l := by
  induction l with
  | nil => simp [alookup] at h
  | cons e rest ih =>
    by_cases he : e.1 = d
    · rw [alookup, if_pos he] at h
      have hv : e.2 = v := by injection h
      have : e = (d, v) := by
        cases e
        simp_all
      rw [← this]
      exact List.mem_cons_self _ _
    · rw [alookup, if_neg he] at h
      exact List.mem_cons_of_mem _ (ih h)

/-! ### Linear-merge loop lemmas -/

lemma proxLoop_total (ph : Bool) (dist : Nat) (l1 l2 : List Int) :
    ∀ fuel i j, i < l1.length → j < l2.length →
      l1.length + l2.length ≤ fuel + i + j →
      ∃ b, proxLoop ph dist l1 l2 fuel i j = some b := by
  intro fuel
  induction fuel with
  | zero =>
    intro i j hi hj hf
    omega
  | succ n ih =>
    intro i j hi hj hf
    obtain ⟨p1, hp1⟩ := get?_lt hi
    obtain ⟨p2, hp2⟩ := get?_lt hj
    simp only [proxLoop, hp1, hp2]
    split_ifs <;>
      first
        | exact ⟨true, rfl⟩
        | exact ⟨false, rfl⟩
        | exact ih (i + 1) j (by omega) hj (by omega)
        | exact ih i (j + 1) hi (by omega) (by omega)

lemma proxLoop_sound (ph : Bool) (dist : Nat) (l1 l2 : List Int) :
    ∀ fuel i j, proxLoop ph dist l1 l2 fuel i j = some true →
      ∃ p1 ∈ l1, ∃ p2 ∈ l2, (p1 - p2).natAbs ≤ dist ∧ (ph = true → p1 - p2 ≤ 0) := by
  intro fuel
  induction fuel with
  | zero =>
    intro i j h
    simp [proxLoop] at h
  | succ n ih =>
    intro i j h
    simp only [proxLoop] at h
    cases hp1 : l1.get? i with
    | none =>
      rw [hp1] at h
      cases hp2 : l2.get? j <;> rw [hp2] at h <;> exact Option.noConfusion h
    | some p1 =>
      cases hp2 : l2.get? j with
      | none =>
        rw [hp1, hp2] at h
        exact Option.noConfusion h
      | some p2 =>
        simp only [hp1, hp2] at h
        by_cases hcond : (p1 - p2).natAbs ≤ dist ∧
            (if ph = true then decide (p1 - p2 ≤ 0) else true) = true
        · refine ⟨p1, get?_mem hp1, p2, get?_mem hp2, hcond.1, fun hph => ?_⟩
          have hc := hcond.2
          rw [hph] at hc
          simpa using hc
        · rw [if_neg hcond] at h
          by_cases hb1 : p1 < p2 ∧ i < l1.length - 1
          · rw [if_pos hb1] at h
            exact ih (i + 1) j h
          · rw [if_neg hb1] at h
            by_cases hb2 : p2 ≤ p1 ∧ j < l2.length - 1
            · rw [if_pos hb2] at h
              exact ih i (j + 1) h
            · rw [if_neg hb2] at h
              exact absurd h (by simp)

lemma proxLoop_false_all (dist : Nat) (l1 l2 : List Int)
    (hs1 : l1.Sorted (· < ·)) (hs2 : l2.Sorted (· < ·)) :
    ∀ fuel i j,
      (∀ i' j' q1 q2, l1.get? i' = some q1 → l2.get? j' = some q2 →
        (i' < i ∨ j' < j) → dist < (q1 - q2).natAbs) →
      proxLoop false dist l1 l2 fuel i j = some false →
      ∀ q1 ∈ l1, ∀ q2 ∈ l2, dist < (q1 - q2).natAbs := by
  intro fuel
  induction fuel with
  | zero =>
    intro i j _ h
    simp [proxLoop] at h
  | succ n ih =>
    intro i j hinv h
    simp only [proxLoop] at h
    cases hg1 : l1.get? i with
    | none =>
      rw [hg1] at h
      cases hg2 : l2.get? j <;> rw [hg2] at h <;> exact Option.noConfusion h
    | some p1 =>
      cases hg2 : l2.get? j with
      | none =>
        rw [hg1, hg2] at h
        exact Option.noConfusion h
      | some p2 =>
        simp only [hg1, hg2] at h
        by_cases h1 : (p1 - p2).natAbs ≤ dist ∧
            (if false = true then decide (p1 - p2 ≤ 0) else true) = true
        · rw [if_pos h1] at h
          exact absurd h (by simp)
        · rw [if_neg h1] at h
          have hnm : dist < (p1 - p2).natAbs := by
            by_contra hcon
            exact h1 ⟨by omega, by simp⟩
          by_cases h2 : p1 < p2 ∧ i < l1.length - 1
          · -- the loop advanced pointer i
            rw [if_pos h2] at h
            refine ih (i + 1) j ?_ h
            intro i' j' q1 q2 hq1 hq2 hlt
            rcases hlt with hlt | hlt
            · rcases Nat.lt_succ_iff_lt_or_eq.mp hlt with hlt | rfl
              · exact hinv i' j' q1 q2 hq1 hq2 (Or.inl hlt)
              · by_cases hj' : j' < j
                · exact hinv i' j' q1 q2 hq1 hq2 (Or.inr hj')
                · have hq1p : q1 = p1 := by
                    rw [hg1] at hq1
                    injection hq1 with hh
                    exact hh.symm
                  have hmono : p2 ≤ q2 := sorted_get?_mono hs2 (le_of_not_lt hj') hg2 hq2
                  omega
            · exact hinv i' j' q1 q2 hq1 hq2 (Or.inr hlt)
          · rw [if_neg h2] at h
            by_cases h3 : p2 ≤ p1 ∧ j < l2.length - 1
            · -- the loop advanced pointer j
              rw [if_pos h3] at h
              refine ih i (j + 1) ?_ h
              intro i' j' q1 q2 hq1 hq2 hlt
              rcases hlt with hlt | hlt
              · exact hinv i' j' q1 q2 hq1 hq2 (Or.inl hlt)
              · rcases Nat.lt_succ_iff_lt_or_eq.mp hlt with hlt | rfl
                · exact hinv i' j' q1 q2 hq1 hq2 (Or.inr hlt)
                · by_cases hi' : i' < i
                  · exact hinv i' j' q1 q2 hq1 hq2 (Or.inl hi')
                  · have hq2p : q2 = p2 := by
                      rw [hg2] at hq2
                      injection hq2 with hh
                      exact hh.symm
                    have hmono : p1 ≤ q1 := sorted_get?_mono hs1 (le_of_not_lt hi') hg1 hq1
                    have hord : p2 ≤ p1 := h3.1
                    omega
            · -- the loop exited via the notOutOfBounds flag
              have hi : i < l1.length := get?_lt_length hg1
              have hj : j < l2.length := get?_lt_length hg2
              intro q1 hq1m q2 hq2m
              obtain ⟨i'', hq1⟩ := mem_get? hq1m
              obtain ⟨j'', hq2⟩ := mem_get? hq2m
              have hi'' : i'' < l1.length := get?_lt_length hq1
              have hj'' : j'' < l2.length := get?_lt_length hq2
              by_cases hcase : p1 < p2
              · have hieq : i = l1.length - 1 := by
                  rcases Nat.lt_or_ge i (l1.length - 1) with hlt | hge
                  · exact absurd ⟨hcase, hlt⟩ h2
                  · omega
                by_cases hj'lt : j'' < j
                · exact hinv i'' j'' q1 q2 hq1 hq2 (Or.inr hj'lt)
                · have ha : q1 ≤ p1 := sorted_get?_mono hs1 (by omega) hq1 hg1
                  have hb : p2 ≤ q2 := sorted_get?_mono hs2 (le_of_not_lt hj'lt) hg2 hq2
                  omega
              · have hjeq : j = l2.length - 1 := by
                  rcases Nat.lt_or_ge j (l2.length - 1) with hlt | hge
                  · exact absurd ⟨by omega, hlt⟩ h3
                  · omega
                by_cases hi'lt : i'' < i
                · exact hinv i'' j'' q1 q2 hq1 hq2 (Or.inl hi'lt)
                · have ha : p1 ≤ q1 := sorted_get?_mono hs1 (le_of_not_lt hi'lt) hg1 hq1
                  have hb : q2 ≤ p2 := sorted_get?_mono hs2 (by omega) hq2 hg2
                  omega

/-! ### Plumbing lemmas for the proximity handler -/

lemma proximityHandler_pair (qp : QueryProcessor) {t1 t2 : Str} (dist : Nat) (ph : Bool)
    (h1 : ',' ∉ t1) (h2 : ',' ∉ t2) :
    proximityHandler qp (t1 ++ ',' :: t2) dist ph =
      proximityMerge qp (strip t1) (strip t2) dist ph := by
  have hq : t1 ++ ',' :: t2 = t1 ++ (',' :: ([] : Str)) ++ t2 := by simp
  have hsf : splitFirst (',' :: ([] : Str)) (t1 ++ (',' :: ([] : Str)) ++ t2) = some (t1, t2) :=
    splitFirst_append_pat h1
  have hnone : splitFirst (',' :: ([] : Str)) t2 = none := splitFirst_none_of_not_mem h2
  simp only [proximityHandler, hq, splitAll_field0 hsf, splitAll_field1_none hsf hnone,
    Option.getD_some]

lemma mem_proximityMerge {qp : QueryProcessor} {T1 T2 : Str} {dist : Nat} {ph : Bool} {d : Nat}
    {l1 l2 : List Int}
    (h1 : alookup d (qp.postingsOf (preprocessedTerm qp T1)) = some l1)
    (h2 : alookup d (qp.postingsOf (preprocessedTerm qp T2)) = some l2) :
    d ∈ proximityMerge qp T1 T2 dist ph ↔
      proxLoop ph dist l1 l2 (l1.length + l2.length + 1) 0 0 = some true := by
  have hm1 : d ∈ ((qp.postingsOf (preprocessedTerm qp T1)).map Prod.fst).toFinset := by
    rw [List.mem_toFinset]
    exact List.mem_map.mpr ⟨(d, l1), alookup_mem h1, rfl⟩
  have hm2 : d ∈ ((qp.postingsOf (preprocessedTerm qp T2)).map Prod.fst).toFinset := by
    rw [List.mem_toFinset]
    exact List.mem_map.mpr ⟨(d, l2), alookup_mem h2, rfl⟩
  simp only [proximityMerge, getTermDocumentDictionary, Finset.mem_filter, Finset.mem_inter,
    h1, h2, Option.getD_some]
  constructor
  · rintro ⟨_, hp⟩
    exact hp
  · intro hp
    exact ⟨⟨hm1, hm2⟩, hp⟩

/-- C1: for a non-phrase proximity query over a candidate document whose two
position lists are ascending and duplicate-free, if the minimum absolute gap
between a position of term 1 and a position of term 2 equals the query
distance, the document is in the returned set; if every such gap is at least
distance + 1, the document is excluded. -/
theorem C1_proximity_distance_boundary (qp : QueryProcessor) (t1 t2 : Str)
    (dist d : Nat) (l1 l2 : List Int)
    (hc1 : ',' ∉ t1) (hc2 : ',' ∉ t2)
    (h1 : alookup d (qp.postingsOf (preprocessedTerm qp (strip t1))) = some l1)
    (h2 : alookup d (qp.postingsOf (preprocessedTerm qp (strip t2))) = some l2)
    (hs1 : l1.Sorted (· < ·)) (hs2 : l2.Sorted (· < ·)) :
    ((∃ p1 ∈ l1, ∃ p2 ∈ l2, (p1 - p2).natAbs = dist) ∧
        (∀ p1 ∈ l1, ∀ p2 ∈ l2, dist ≤ (p1 - p2).natAbs) →
      d ∈ proximityHandler qp (t1 ++ ',' :: t2) dist false) ∧
    ((∀ p1 ∈ l1, ∀ p2 ∈ l2, dist + 1 ≤ (p1 - p2).natAbs) →
      d ∉ proximityHandler qp (t1 ++ ',' :: t2) dist false) := by
  rw [proximityHandler_pair qp dist false hc1 hc2, mem_proximityMerge h1 h2]
  constructor
  · rintro ⟨⟨p1, hp1, p2, hp2, hgap⟩, hmin⟩
    have hne1 : 0 < l1.length := List.length_pos.mpr (List.ne_nil_of_mem hp1)
    have hne2 : 0 < l2.length := List.length_pos.mpr (List.ne_nil_of_mem hp2)
    obtain ⟨b, hb⟩ :=
      proxLoop_total false dist l1 l2 (l1.length + l2.length + 1) 0 0 hne1 hne2 (by omega)
    cases b with
    | false =>
      have hall := proxLoop_false_all dist l1 l2 hs1 hs2 (l1.length + l2.length + 1) 0 0
        (fun i' j' q1 q2 _ _ hlt => by omega) hb
      have := hall p1 hp1 p2 hp2
      omega
    | true => exact hb
  · intro hall hcon
    obtain ⟨p1, hp1, p2, hp2, hle, _⟩ := proxLoop_sound false dist l1 l2 _ 0 0 hcon
    have := hall p1 hp1 p2 hp2
    omega

/-- Concrete instantiation of C1: in the sample index the gap between the
positions of `cat` and `dog` in document 1 is exactly the distance 1, so the
proximity query returns document 1. -/
theorem C1_witness :
    (1 : Nat) ∈ proximityHandler qpW (['c', 'a', 't'] ++ ',' :: ['d', 'o', 'g']) 1 false :=
  (C1_proximity_distance_boundary qpW ['c', 'a', 't'] ['d', 'o', 'g'] 1 1 [3] [4]
      (by decide) (by decide) (by decide) (by decide) (by decide) (by decide)).1
    ⟨⟨3, by decide, 4, by decide, by decide⟩, by decide⟩

/-- C4: the matcher is order-sensitive exactly when `isPhrase` is true: on a
candidate document where every position of term 1 lies strictly after every
position of term 2 with minimum gap 1, the phrase match with distance 1
excludes the document while the non-phrase match includes it. -/
theorem C4_phrase_order_sensitivity (qp : QueryProcessor) (t1 t2 : Str)
    (d : Nat) (l1 l2 : List Int)
    (hc1 : ',' ∉ t1) (hc2 : ',' ∉ t2)
    (h1 : alookup d (qp.postingsOf (preprocessedTerm qp (strip t1))) = some l1)
    (h2 : alookup d (qp.postingsOf (preprocessedTerm qp (strip t2))) = some l2)
    (hs1 : l1.Sorted (· < ·)) (hs2 : l2.Sorted (· < ·))
    (horder : ∀ p1 ∈ l1, ∀ p2 ∈ l2, p2 < p1)
    (hgap : ∃ p1 ∈ l1, ∃ p2 ∈ l2, p1 - p2 = 1) :
    d ∉ proximityHandler qp (t1 ++ ',' :: t2) 1 true ∧
      d ∈ proximityHandler qp (t1 ++ ',' :: t2) 1 false := by
  rw [proximityHandler_pair qp 1 true hc1 hc2, proximityHandler_pair qp 1 false hc1 hc2,
    mem_proximityMerge h1 h2, mem_proximityMerge h1 h2]
  constructor
  · intro hcon
    obtain ⟨p1, hp1, p2, hp2, _, hord⟩ := proxLoop_sound true 1 l1 l2 _ 0 0 hcon
    have h12 := horder p1 hp1 p2 hp2
    have := hord rfl
    omega
  · obtain ⟨p1, hp1, p2, hp2, hgap1⟩ := hgap
    have hne1 : 0 < l1.length := List.length_pos.mpr (List.ne_nil_of_mem hp1)
    have hne2 : 0 < l2.length := List.length_pos.mpr (List.ne_nil_of_mem hp2)
    obtain ⟨b, hb⟩ :=
      proxLoop_total false 1 l1 l2 (l1.length + l2.length + 1) 0 0 hne1 hne2 (by omega)
    cases b with
    | false =>
      have hall := proxLoop_false_all 1 l1 l2 hs1 hs2 (l1.length + l2.length + 1) 0 0
        (fun i' j' q1 q2 _ _ hlt => by omega) hb
      have := hall p1 hp1 p2 hp2
      omega
    | true => exact hb

/-- Concrete instantiation of C4: in the sample index `dog` (position 4)
occurs only after `cat` (position 3) in document 1, so the phrase `dog cat`
excludes document 1 but the unordered proximity query includes it. -/
theorem C4_witness :
    (1 : Nat) ∉ proximityHandler qpW (['d', 'o', 'g'] ++ ',' :: ['c', 'a', 't']) 1 true ∧
      (1 : Nat) ∈ proximityHandler qpW (['d', 'o', 'g'] ++ ',' :: ['c', 'a', 't']) 1 false :=
  C4_phrase_order_sensitivity qpW ['d', 'o', 'g'] ['c', 'a', 't'] 1 [4] [3]
    (by decide) (by decide) (by decide) (by decide) (by decide) (by decide) (by decide)
    ⟨4, by decide, 3, by decide, by decide⟩

/-- C8: on a candidate document both position lists are non-empty, and with
the fuel `proximityMerge` supplies the linear-merge loop always reaches a
verdict: it terminates and never performs an out-of-bounds list access
(either failure would yield `none` instead of `some`). -/
theorem C8_merge_terminates_in_bounds (l1 l2 : List Int) (ph : Bool) (dist : Nat)
    (h1 : l1 ≠ []) (h2 : l2 ≠ []) :
    ∃ b, proxLoop ph dist l1 l2 (l1.length + l2.length + 1) 0 0 = some b :=
  proxLoop_total ph dist l1 l2 _ 0 0 (List.length_pos.mpr h1) (List.length_pos.mpr h2)
    (by omega)

/-- Concrete instantiation of C8 on two singleton position lists. -/
theorem C8_witness : ∃ b, proxLoop false 2 [3] [10] 3 0 0 = some b :=
  C8_merge_terminates_in_bounds [3] [10] false 2 (by decide) (by decide)

/-! ### Result-writer truncation -/

lemma emitCapped_eq_take {α : Type} : ∀ (l : List α) (c : Nat), c ≤ 999 →
    emitCapped c l = l.take (999 - c) := by
  intro l
  induction l with
  | nil =>
    intro c _
    simp [emitCapped]
  | cons x rest ih =>
    intro c hc
    by_cases h : c = 999
    · subst h
      simp [emitCapped]
    · rw [emitCapped, if_neg h, ih (c + 1) (by omega)]
      have h9 : 999 - c = (999 - (c + 1)) + 1 := by omega
      rw [h9, List.take_succ_cons]

/-- C3 counterexample: a boolean result set with exactly 1000 documents is
written with only 999 entry lines — the writer breaks when the enumeration
counter reaches 999 before writing that entry — so a query with 1000 entries
is not written in full and larger results are not cut at 1000 either. -/
theorem C3_counterexample :
    (Finset.range 1000).card = 1000 ∧
      (writeBooleanEntries (Finset.range 1000)).length = 999 := by
  constructor
  · simp
  · rw [writeBooleanEntries, emitCapped_eq_take _ 0 (by omega)]
    rw [Finset.sort_range]
    simp [List.length_take]

/-- C3 (amended): the written entries of each query are the first 999 in the
emitted order — ascending document id for boolean results, descending score
for ranked results — and a query with at most 999 entries is written in
full. -/
theorem C3_truncates_to_999 :
    (∀ v : Finset Nat, writeBooleanEntries v = (v.sort (· ≤ ·)).take 999) ∧
      ∀ items : List (Nat × ℝ), writeTFIDFEntries items = (sortTFIDFDesc items).take 999 := by
  constructor
  · intro v
    rw [writeBooleanEntries, emitCapped_eq_take _ 0 (by omega)]
  · intro items
    rw [writeTFIDFEntries, emitCapped_eq_take _ 0 (by omega)]

/-! ### The NOT branch of the simple-expression handler -/

lemma pfx_notLit_space : ∀ {A t : Str}, pfx notLit (A ++ ' ' :: t) = true →
    containsSub notLit A = true := by
  intro A t h
  match A with
  | [] =>
    simp only [notLit, List.nil_append, pfx, Bool.and_eq_true, beq_iff_eq] at h
    exact absurd h.1 (by decide)
  | [c1] =>
    simp only [notLit, List.cons_append, List.nil_append, pfx, Bool.and_eq_true,
      beq_iff_eq] at h
    exact absurd h.2.1 (by decide)
  | [c1, c2] =>
    simp only [notLit, List.cons_append, List.nil_append, pfx, Bool.and_eq_true,
      beq_iff_eq] at h
    exact absurd h.2.2.1 (by decide)
  | c1 :: c2 :: c3 :: A' =>
    simp only [notLit, List.cons_append, pfx, Bool.and_eq_true, beq_iff_eq] at h
    obtain ⟨h1, h2, h3, _⟩ := h
    have hp : pfx notLit (c1 :: c2 :: c3 :: A') = true := by
      rw [← h1, ← h2, ← h3]
      simp [notLit, pfx]
    rw [containsSub_cons, hp]
    rfl

lemma splitFirst_sepNot (A B : Str) (hA : containsSub notLit A = false) :
    splitFirst notLit (A ++ sepNot ++ B) = some (A ++ [' '], ' ' :: B) := by
  induction A with
  | nil =>
    have hshape : (([] : Str) ++ sepNot ++ B) = ' ' :: (notLit ++ (' ' :: B)) := by
      simp [sepNot, notLit]
    rw [hshape, splitFirst_cons_neg (by simp [pfx, notLit]),
      splitFirst_pos (pfx_append notLit (' ' :: B))]
    simp [List.drop_left]
  | cons c A' ih =>
    have hA' : containsSub notLit A' = false := by
      rw [containsSub_cons] at hA
      exact (Bool.or_eq_false_iff.mp hA).2
    have hshape : ((c :: A') ++ sepNot ++ B) = c :: (A' ++ sepNot ++ B) := by
      simp
    have hpfalse : pfx notLit (c :: (A' ++ sepNot ++ B)) = false := by
      rcases hp : pfx notLit (c :: (A' ++ sepNot ++ B)) with _ | _
      · rfl
      · exfalso
        have hform : (c :: (A' ++ sepNot ++ B)) = (c :: A') ++ ' ' :: (notLit ++ ' ' :: B) := by
          simp [sepNot, notLit]
        rw [hform] at hp
        have := pfx_notLit_space hp
        rw [this] at hA
        exact Bool.noConfusion hA
    rw [hshape, splitFirst_cons_neg hpfalse, ih hA']
    simp

lemma simpleExpressionHandler_sepNot (qp : QueryProcessor) (A B : Str)
    (hB : ∀ c ∈ B, isPyWs c = false)
    (hAnot : containsSub notLit A = false) (hBq : containsSub ['"'] B = false) :
    simpleExpressionHandler qp (A ++ sepNot ++ B) =
      qp.docIDSet \ getTermDocumentSet qp (preprocessedTerm qp B) := by
  have hsf := splitFirst_sepNot A B hAnot
  have hc : containsSub notLit (A ++ sepNot ++ B) = true := containsSub_of_splitFirst hsf
  have hsf2 : splitFirst notLit (A ++ (sepNot ++ B)) = some (A ++ [' '], ' ' :: B) := by
    rw [← List.append_assoc]
    exact hsf
  have hc2 : containsSub notLit (A ++ (sepNot ++ B)) = true := by
    rw [← List.append_assoc]
    exact hc
  have hstrip : strip (' ' :: B) = B := strip_space_cons hB
  simp [simpleExpressionHandler, hc, hsf, hc2, hsf2, hstrip, hBq]

/-- C10: whenever the characters `NOT` occur anywhere in a simple expression
— also inside a longer word, with no token-boundary check — the handler
returns the Universe Set minus the document set of the text after the first
occurrence, discarding all text before it; in particular `A NOT B` ignores
`A` entirely and equals the complement of the document set of `B`. -/
theorem C10_not_substring_complement (qp : QueryProcessor) :
    (∀ e b a : Str, splitFirst notLit e = some (b, a) →
        simpleExpressionHandler qp e =
          qp.docIDSet \ (if containsSub ['"'] (strip a) = true then phraseHandler qp (strip a)
             else getTermDocumentSet qp (preprocessedTerm qp (strip a)))) ∧
      (∀ A B : Str, (∀ c ∈ A, isPyWs c = false) → (∀ c ∈ B, isPyWs c = false) →
        containsSub notLit A = false → containsSub ['"'] B = false →
        simpleExpressionHandler qp (A ++ sepNot ++ B) =
          qp.docIDSet \ getTermDocumentSet qp (preprocessedTerm qp B)) := by
  constructor
  · intro e b a h
    have hc : containsSub notLit e = true := containsSub_of_splitFirst h
    simp [simpleExpressionHandler, hc, h]
  · intro A B hA hB hAnot hBq
    exact simpleExpressionHandler_sepNot qp A B hB hAnot hBq

/-- Concrete instantiation of C10: the word `KNOTTED` contains `NOT`, so its
simple-expression evaluation is the complement of the document set of
`TED`. -/
theorem C10_witness :
    splitFirst notLit ['K', 'N', 'O', 'T', 'T', 'E', 'D'] = some (['K'], ['T', 'E', 'D']) ∧
      simpleExpressionHandler qpW ['K', 'N', 'O', 'T', 'T', 'E', 'D'] =
        qpW.docIDSet \ (if containsSub ['"'] (strip ['T', 'E', 'D']) = true
           then phraseHandler qpW (strip ['T', 'E', 'D'])
           else getTermDocumentSet qpW (preprocessedTerm qpW (strip ['T', 'E', 'D']))) :=
  ⟨by decide,
    (C10_not_substring_complement qpW).1 ['K', 'N', 'O', 'T', 'T', 'E', 'D'] ['K'] ['T', 'E', 'D']
      (by decide)⟩

/-! ### Evaluation lemmas for the boolean expression evaluator -/

lemma simpleExpressionHandler_term (qp : QueryProcessor) (t : Str)
    (hnot : containsSub notLit t = false) (hq : containsSub ['"'] t = false) :
    simpleExpressionHandler qp t = getTermDocumentSet qp (preprocessedTerm qp t) := by
  simp [simpleExpressionHandler, hnot, hq]

lemma space_pat_not_in_sepNot {c0 : Char} {p2 : Str} (hc0 : c0 ≠ 'N')
    (hsp : ' ' ∈ c0 :: p2) (B : Str) (hB : ' ' ∉ B) :
    containsSub (' ' :: c0 :: p2) (sepNot ++ B) = false := by
  have hshape : sepNot ++ B = ' ' :: 'N' :: 'O' :: 'T' :: ' ' :: B := by simp [sepNot]
  rw [hshape, containsSub_cons]
  have h1 : pfx (' ' :: c0 :: p2) (' ' :: 'N' :: 'O' :: 'T' :: ' ' :: B) = false := by
    have hstep : pfx (' ' :: c0 :: p2) (' ' :: 'N' :: 'O' :: 'T' :: ' ' :: B)
        = (((' ' : Char) == ' ') && pfx (c0 :: p2) ('N' :: 'O' :: 'T' :: ' ' :: B)) := rfl
    rw [hstep, pfx_cons_false hc0]
    simp
  rw [h1, Bool.false_or]
  rw [containsSub_cons, pfx_cons_false (show (' ' : Char) ≠ 'N' from by decide), Bool.false_or]
  rw [containsSub_cons, pfx_cons_false (show (' ' : Char) ≠ 'O' from by decide), Bool.false_or]
  rw [containsSub_cons, pfx_cons_false (show (' ' : Char) ≠ 'T' from by decide), Bool.false_or]
  rw [containsSub_cons]
  have h2 : pfx (' ' :: c0 :: p2) (' ' :: B) = false := by
    rcases hp : pfx (' ' :: c0 :: p2) (' ' :: B) with _ | _
    · rfl
    · exfalso
      have hstep : pfx (' ' :: c0 :: p2) (' ' :: B)
          = (((' ' : Char) == ' ') && pfx (c0 :: p2) B) := rfl
      rw [hstep] at hp
      have hp2 : pfx (c0 :: p2) B = true := by simpa using hp
      exact hB (pfx_subset hp2 ' ' hsp)
  rw [h2, Bool.false_or]
  exact containsSub_false_of_not_mem (List.mem_cons_self _ _) hB

lemma joinSep_cons2 (sep w1 w2 : Str) (rest : List Str) :
    joinSep sep (w1 :: w2 :: rest) = w1 ++ sep ++ joinSep sep (w2 :: rest) := rfl

lemma joinSep_fields {p' : Str} (w1 w2 : Str) (rest : List Str)
    (h1 : ' ' ∉ w1) (h2 : ' ' ∉ w2) :
    (splitAll (' ' :: p') (joinSep (' ' :: p') (w1 :: w2 :: rest)))[0]? = some w1 ∧
      (splitAll (' ' :: p') (joinSep (' ' :: p') (w1 :: w2 :: rest)))[1]? = some w2 ∧
      containsSub (' ' :: p') (joinSep (' ' :: p') (w1 :: w2 :: rest)) = true := by
  have hsf : splitFirst (' ' :: p') (joinSep (' ' :: p') (w1 :: w2 :: rest)) =
      some (w1, joinSep (' ' :: p') (w2 :: rest)) := by
    rw [joinSep_cons2]
    exact splitFirst_append_pat h1
  refine ⟨splitAll_field0 hsf, ?_, containsSub_of_splitFirst hsf⟩
  cases rest with
  | nil =>
    have hnone : splitFirst (' ' :: p') (joinSep (' ' :: p') [w2]) = none := by
      have hj : joinSep (' ' :: p') [w2] = w2 := rfl
      rw [hj]
      exact splitFirst_none_of_not_mem h2
    exact splitAll_field1_none hsf hnone
  | cons r rs =>
    have hsf2 : splitFirst (' ' :: p') (joinSep (' ' :: p') (w2 :: r :: rs)) =
        some (w2, joinSep (' ' :: p') (r :: rs)) := by
      rw [joinSep_cons2]
      exact splitFirst_append_pat h2
    exact splitAll_field1_some (by simp) hsf hsf2

lemma complexExpressionHandler_and (qp : QueryProcessor) (w1 w2 : Str) (rest : List Str)
    (h1 : ' ' ∉ w1) (h2 : ' ' ∉ w2) :
    complexExpressionHandler qp (joinSep andLit (w1 :: w2 :: rest)) =
      simpleExpressionHandler qp (strip w1) ∩ simpleExpressionHandler qp (strip w2) := by
  obtain ⟨hf0, hf1, hcont⟩ := @joinSep_fields ['A', 'N', 'D', ' '] w1 w2 rest h1 h2
  simp only [complexExpressionHandler]
  unfold andLit
  simp [hcont, hf0, hf1]

lemma complexExpressionHandler_or (qp : QueryProcessor) (w1 w2 : Str) (rest : List Str)
    (h1 : ' ' ∉ w1) (h2 : ' ' ∉ w2)
    (hand : containsSub andLit (joinSep orLit (w1 :: w2 :: rest)) = false) :
    complexExpressionHandler qp (joinSep orLit (w1 :: w2 :: rest)) =
      simpleExpressionHandler qp (strip w1) ∪ simpleExpressionHandler qp (strip w2) := by
  obtain ⟨hf0, hf1, hcont⟩ := @joinSep_fields ['O', 'R', ' '] w1 w2 rest h1 h2
  simp only [complexExpressionHandler]
  unfold andLit orLit at hand ⊢
  simp [hand, hcont, hf0, hf1]

/-- C5: a query built from two or more operands joined by `" AND "` is split
on every occurrence, each operand is evaluated as a simple expression, and
only the intersection of the first two operand sets is returned; a query
joined by `" OR "` that does not contain `" AND "` likewise returns only the
union of the first two operand sets. -/
theorem C5_first_two_operands (qp : QueryProcessor) (w1 w2 : Str) (rest : List Str)
    (hws : ∀ w ∈ w1 :: w2 :: rest, (' ' : Char) ∉ w) :
    complexExpressionHandler qp (joinSep andLit (w1 :: w2 :: rest)) =
        simpleExpressionHandler qp (strip w1) ∩ simpleExpressionHandler qp (strip w2) ∧
      (containsSub andLit (joinSep orLit (w1 :: w2 :: rest)) = false →
        complexExpressionHandler qp (joinSep orLit (w1 :: w2 :: rest)) =
          simpleExpressionHandler qp (strip w1) ∪ simpleExpressionHandler qp (strip w2)) :=
  ⟨complexExpressionHandler_and qp w1 w2 rest (hws w1 (by simp)) (hws w2 (by simp)),
    fun hand =>
      complexExpressionHandler_or qp w1 w2 rest (hws w1 (by simp)) (hws w2 (by simp)) hand⟩

/-- Concrete instantiation of C5 with three operands: the third operand `u`
is dropped from both the conjunction and the disjunction. -/
theorem C5_witness :
    complexExpressionHandler qpW (joinSep andLit [['c', 'a', 't'], ['d', 'o', 'g'], ['u']]) =
        simpleExpressionHandler qpW (strip ['c', 'a', 't']) ∩
          simpleExpressionHandler qpW (strip ['d', 'o', 'g']) ∧
      complexExpressionHandler qpW (joinSep orLit [['c', 'a', 't'], ['d', 'o', 'g'], ['u']]) =
        simpleExpressionHandler qpW (strip ['c', 'a', 't']) ∪
          simpleExpressionHandler qpW (strip ['d', 'o', 'g']) :=
  ⟨(C5_first_two_operands qpW ['c', 'a', 't'] ['d', 'o', 'g'] [['u']] (by decide)).1,
    (C5_first_two_operands qpW ['c', 'a', 't'] ['d', 'o', 'g'] [['u']] (by decide)).2
      (by decide)⟩

/-- C6: for single-term operands `A` and `B` without nested operators whose
document sets lie inside the Universe Set, `A NOT B` and `A AND B` evaluate
to disjoint sets, and their union restricted to the evaluation of `A` is
exactly the evaluation of `A` (complement partition law). -/
theorem C6_complement_partition (qp : QueryProcessor) (A B : Str)
    (hA : ∀ c ∈ A, isPyWs c = false) (hB : ∀ c ∈ B, isPyWs c = false)
    (hAhash : ('#' : Char) ∉ A) (hBhash : ('#' : Char) ∉ B)
    (hAq : containsSub ['"'] A = false) (hBq : containsSub ['"'] B = false)
    (hAnot : containsSub notLit A = false) (hBnot : containsSub notLit B = false)
    (hsubA : getTermDocumentSet qp (preprocessedTerm qp A) ⊆ qp.docIDSet)
    (hsubB : getTermDocumentSet qp (preprocessedTerm qp B) ⊆ qp.docIDSet) :
    complexExpressionHandler qp (A ++ sepNot ++ B) ∩
        complexExpressionHandler qp (A ++ andLit ++ B) = ∅ ∧
      (complexExpressionHandler qp (A ++ sepNot ++ B) ∪
          complexExpressionHandler qp (A ++ andLit ++ B)) ∩
        complexExpressionHandler qp A = complexExpressionHandler qp A := by
  have hspA : (' ' : Char) ∉ A := by
    intro h
    have := hA ' ' h
    simp [isPyWs] at this
  have hspB : (' ' : Char) ∉ B := by
    intro h
    have := hB ' ' h
    simp [isPyWs] at this
  have gAnd : containsSub andLit (A ++ (sepNot ++ B)) = false := by
    unfold andLit
    rw [containsSub_append_left hspA]
    exact space_pat_not_in_sepNot (by decide) (by decide) B hspB
  have gOr : containsSub orLit (A ++ (sepNot ++ B)) = false := by
    unfold orLit
    rw [containsSub_append_left hspA]
    exact space_pat_not_in_sepNot (by decide) (by decide) B hspB
  have gHash : containsSub ['#'] (A ++ (sepNot ++ B)) = false := by
    refine containsSub_false_of_not_mem (List.mem_cons_self _ _) ?_
    intro hm
    rcases List.mem_append.mp hm with hm | hm
    · exact hAhash hm
    · rcases List.mem_append.mp hm with hm | hm
      · simp [sepNot] at hm
      · exact hBhash hm
  have hsimple : simpleExpressionHandler qp (A ++ (sepNot ++ B)) =
      qp.docIDSet \ getTermDocumentSet qp (preprocessedTerm qp B) := by
    rw [← List.append_assoc]
    exact simpleExpressionHandler_sepNot qp A B hB hAnot hBq
  have e1 : complexExpressionHandler qp (A ++ sepNot ++ B) =
      qp.docIDSet \ getTermDocumentSet qp (preprocessedTerm qp B) := by
    rw [List.append_assoc]
    simp [complexExpressionHandler, gAnd, gOr, gHash, hsimple]
  have e2 : complexExpressionHandler qp (A ++ andLit ++ B) =
      getTermDocumentSet qp (preprocessedTerm qp A) ∩
        getTermDocumentSet qp (preprocessedTerm qp B) := by
    have h := complexExpressionHandler_and qp A B [] hspA hspB
    rw [show joinSep andLit [A, B] = A ++ andLit ++ B from rfl] at h
    rw [h, strip_of_plain hA, strip_of_plain hB,
      simpleExpressionHandler_term qp A hAnot hAq, simpleExpressionHandler_term qp B hBnot hBq]
  have e3 : complexExpressionHandler qp A = getTermDocumentSet qp (preprocessedTerm qp A) := by
    have g1 : containsSub andLit A = false :=
      containsSub_false_of_not_mem (show (' ' : Char) ∈ andLit from by decide) hspA
    have g2 : containsSub orLit A = false :=
      containsSub_false_of_not_mem (show (' ' : Char) ∈ orLit from by decide) hspA
    have g3 : containsSub ['#'] A = false :=
      containsSub_false_of_not_mem (List.mem_cons_self _ _) hAhash
    simp [complexExpressionHandler, g1, g2, g3, simpleExpressionHandler_term qp A hAnot hAq]
  rw [e1, e2, e3]
  constructor
  · ext d
    simp only [Finset.mem_inter, Finset.mem_sdiff, Finset.not_mem_empty, iff_false]
    rintro ⟨⟨hu, hnb⟩, ha, hb⟩
    exact hnb hb
  · ext d
    simp only [Finset.mem_inter, Finset.mem_union, Finset.mem_sdiff]
    constructor
    · rintro ⟨_, h⟩
      exact h
    · intro h
      refine ⟨?_, h⟩
      by_cases hb : d ∈ getTermDocumentSet qp (preprocessedTerm qp B)
      · exact Or.inr ⟨h, hb⟩
      · exact Or.inl ⟨hsubA h, hb⟩

/-- Concrete instantiation of C6 with the operands `cat` and `dog` over the
sample index. -/
theorem C6_witness :
    complexExpressionHandler qpW (['c', 'a', 't'] ++ sepNot ++ ['d', 'o', 'g']) ∩
        complexExpressionHandler qpW (['c', 'a', 't'] ++ andLit ++ ['d', 'o', 'g']) = ∅ ∧
      (complexExpressionHandler qpW (['c', 'a', 't'] ++ sepNot ++ ['d', 'o', 'g']) ∪
          complexExpressionHandler qpW (['c', 'a', 't'] ++ andLit ++ ['d', 'o', 'g'])) ∩
        complexExpressionHandler qpW ['c', 'a', 't'] =
        complexExpressionHandler qpW ['c', 'a', 't'] :=
  C6_complement_partition qpW ['c', 'a', 't'] ['d', 'o', 'g'] (by decide) (by decide)
    (by decide) (by decide) (by decide) (by decide) (by decide) (by decide) (by decide)
    (by decide)

/-- C7: a term with zero postings evaluates to the empty set rather than
failing, and the TF-IDF calculation skips an absent token entirely — a query
whose token list contains the absent token scores exactly like the query with
that token removed. -/
theorem C7_absent_term (qp : QueryProcessor) (t : Str)
    (hnot : containsSub notLit t = false) (hq : containsSub ['"'] t = false)
    (habsent : qp.postingsOf (preprocessedTerm qp t) = [])
    (q q2 : Str) (L1 L2 : List Str) (t2 : Str)
    (htok : qp.ppr.tokenize (qp.ppr.toLowerCase q) = L1 ++ t2 :: L2)
    (htok2 : qp.ppr.tokenize (qp.ppr.toLowerCase q2) = L1 ++ L2)
    (habsent2 : qp.postingsOf (qp.ppr.stemWordPorter t2) = []) :
    simpleExpressionHandler qp t = ∅ ∧ calculateTFIDF qp q = calculateTFIDF qp q2 := by
  constructor
  · rw [simpleExpressionHandler_term qp t hnot hq]
    simp [getTermDocumentSet, habsent]
  · have hstep : ∀ acc, tfidfTermStep qp acc t2 = acc := by
      intro acc
      rw [tfidfTermStep]
      simp [getTermDocumentDictionary, habsent2]
    rw [calculateTFIDF, calculateTFIDF, htok, htok2, List.foldl_append, List.foldl_append,
      List.foldl_cons, hstep]

/-- Concrete instantiation of C7: the term `z` is absent from the sample
index; the tokenizer of `qpW7` sends query `a` to the single token `z` and
query `b` to no tokens. -/
theorem C7_witness :
    simpleExpressionHandler qpW7 ['z'] = ∅ ∧
      calculateTFIDF qpW7 ['a'] = calculateTFIDF qpW7 ['b'] :=
  C7_absent_term qpW7 ['z'] (by decide) (by decide) (by decide) ['a'] ['b'] [] [] ['z']
    (by decide) (by decide) (by decide)

/-! ### TF-IDF accumulation lemmas -/

lemma filter_key_map_sum (W : Nat × List Int → ℝ) :
    ∀ (dict : List (Nat × List Int)), (dict.map Prod.fst).Nodup → ∀ d : Nat,
      ((dict.filter fun e => decide (e.1 = d)).map W).sum
        = if d ∈ (dict.map Prod.fst).toFinset then W (d, (alookup d dict).getD []) else 0 := by
  intro dict
  induction dict with
  | nil =>
    intro _ d
    simp
  | cons e rest ih =>
    intro hnodup d
    have hnd : e.1 ∉ rest.map Prod.fst ∧ (rest.map Prod.fst).Nodup := by
      rw [List.map_cons, List.nodup_cons] at hnodup
      exact hnodup
    by_cases hed : e.1 = d
    · have hfilterrest : rest.filter (fun e => decide (e.1 = d)) = [] := by
        rw [List.filter_eq_nil_iff]
        intro e' he'
        simp only [decide_eq_true_eq]
        intro hkey
        exact hnd.1 (hed ▸ hkey ▸ List.mem_map.mpr ⟨e', he', rfl⟩)
      rw [List.filter_cons, if_pos (by simp [hed]), hfilterrest]
      have hmem : d ∈ ((e :: rest).map Prod.fst).toFinset := by
        rw [List.map_cons, List.toFinset_cons, ← hed]
        exact Finset.mem_insert_self e.1 _
      rw [if_pos hmem]
      have hlk : alookup d (e :: rest) = some e.2 := by
        rw [alookup, if_pos hed]
      rw [hlk, Option.getD_some]
      have hpair : (d, e.2) = e := by
        rw [← hed]
      rw [hpair]
      simp
    · rw [List.filter_cons, if_neg (by simp [hed]), ih hnd.2 d]
      have hlk : alookup d (e :: rest) = alookup d rest := by
        rw [alookup, if_neg hed]
      rw [hlk, List.map_cons, List.toFinset_cons]
      by_cases hmem : d ∈ (rest.map Prod.fst).toFinset
      · rw [if_pos hmem, if_pos (Finset.mem_insert_of_mem hmem)]
      · rw [if_neg hmem, if_neg (fun h => ?_)]
        rcases Finset.mem_insert.mp h with h1 | h1
        · exact hed h1.symm
        · exact hmem h1

lemma scoreFold_char (W : Nat × List Int → ℝ) :
    ∀ (entries : List (Nat × List Int)) (sc : ScoreMap),
      (∀ d, d ∉ sc.support → sc.score d = 0) →
      ((entries.foldl (fun sc e => scoreInsert sc e.1 (W e)) sc).support
          = sc.support ∪ (entries.map Prod.fst).toFinset) ∧
        (∀ d, (entries.foldl (fun sc e => scoreInsert sc e.1 (W e)) sc).score d
          = sc.score d + ((entries.filter fun e => decide (e.1 = d)).map W).sum) ∧
        (∀ d, d ∉ (entries.foldl (fun sc e => scoreInsert sc e.1 (W e)) sc).support →
          (entries.foldl (fun sc e => scoreInsert sc e.1 (W e)) sc).score d = 0) := by
  intro entries
  induction entries with
  | nil =>
    intro sc h0
    refine ⟨by simp, fun d => by simp, h0⟩
  | cons e rest ih =>
    intro sc h0
    have hstep0 : ∀ d, d ∉ (scoreInsert sc e.1 (W e)).support →
        (scoreInsert sc e.1 (W e)).score d = 0 := by
      intro d hd
      rw [scoreInsert] at hd ⊢
      by_cases he : e.1 ∈ sc.support
      · rw [if_pos he] at hd ⊢
        have hne : d ≠ e.1 := fun hh => hd (hh ▸ he)
        show (if d = e.1 then sc.score d + W e else sc.score d) = 0
        rw [if_neg hne]
        exact h0 d hd
      · rw [if_neg he] at hd ⊢
        have hne : d ≠ e.1 := by
          intro hh
          exact hd (hh ▸ Finset.mem_insert_self _ _)
        have hd2 : d ∉ sc.support := fun hh => hd (Finset.mem_insert_of_mem hh)
        show (if d = e.1 then W e else sc.score d) = 0
        rw [if_neg hne]
        exact h0 d hd2
    obtain ⟨ihsup, ihscore, ihinv⟩ := ih (scoreInsert sc e.1 (W e)) hstep0
    refine ⟨?_, ?_, by simpa [List.foldl_cons] using ihinv⟩
    · rw [List.foldl_cons, ihsup]
      by_cases he : e.1 ∈ sc.support
      · rw [scoreInsert, if_pos he]
        show sc.support ∪ _ = _
        rw [List.map_cons, List.toFinset_cons, Finset.union_insert]
        exact (Finset.insert_eq_self.mpr (Finset.mem_union_left _ he)).symm
      · rw [scoreInsert, if_neg he]
        show insert e.1 sc.support ∪ _ = _
        rw [List.map_cons, List.toFinset_cons, Finset.insert_union, Finset.union_insert]
    · intro d
      rw [List.foldl_cons, ihscore d]
      have hsc : (scoreInsert sc e.1 (W e)).score d
          = sc.score d + (if e.1 = d then W e else 0) := by
        rw [scoreInsert]
        by_cases he : e.1 ∈ sc.support
        · rw [if_pos he]
          show (if d = e.1 then sc.score d + W e else sc.score d) = _
          by_cases hde : d = e.1
          · rw [if_pos hde, if_pos hde.symm]
          · rw [if_neg hde, if_neg (fun hh => hde hh.symm), add_zero]
        · rw [if_neg he]
          show (if d = e.1 then W e else sc.score d) = _
          by_cases hde : d = e.1
          · rw [if_pos hde, if_pos hde.symm]
            have hz : sc.score d = 0 := h0 d (hde ▸ he)
            rw [hz, zero_add]
          · rw [if_neg hde, if_neg (fun hh => hde hh.symm), add_zero]
      rw [hsc, List.filter_cons]
      by_cases hde : e.1 = d
      · have hc1 : decide (e.1 = d) = true := by simp [hde]
        rw [if_pos hde, if_pos hc1, List.map_cons, List.sum_cons]
        ring
      · have hc1 : ¬decide (e.1 = d) = true := by simp [hde]
        rw [if_neg hde, if_neg hc1, add_zero]

lemma tfidfTermStep_char (qp : QueryProcessor) (acc : ScoreMap) (t : Str)
    (hnodup : ((qp.postingsOf (qp.ppr.stemWordPorter t)).map Prod.fst).Nodup)
    (h0 : ∀ d, d ∉ acc.support → acc.score d = 0) :
    ((tfidfTermStep qp acc t).support
        = acc.support ∪ (if termQualifies qp t then docsOf qp t else ∅)) ∧
      (∀ d, (tfidfTermStep qp acc t).score d = acc.score d + specContribution qp t d) ∧
      (∀ d, d ∉ (tfidfTermStep qp acc t).support → (tfidfTermStep qp acc t).score d = 0) := by
  by_cases hg : 0 < t.length ∧ qp.ppr.isNotAStopword t = true
  · by_cases hd : (getTermDocumentDictionary qp (qp.ppr.stemWordPorter t)).length = 0
    · have hqual : ¬ termQualifies qp t := by
        rintro ⟨_, _, hne⟩
        exact hne (List.length_eq_zero.mp hd)
      have hstep : tfidfTermStep qp acc t = acc := by
        simp only [tfidfTermStep]
        rw [if_pos hg, if_pos hd]
      rw [hstep]
      exact ⟨by simp [hqual], fun d => by simp [specContribution, hqual], h0⟩
    · have hqual : termQualifies qp t := by
        refine ⟨hg.1, hg.2, fun hnil => hd ?_⟩
        rw [getTermDocumentDictionary, hnil]
        rfl
      have hstep : tfidfTermStep qp acc t
          = (getTermDocumentDictionary qp (qp.ppr.stemWordPorter t)).foldl
              (fun sc entry => scoreInsert sc entry.1
                (tfWeight qp.collectionSize
                  (getTermDocumentDictionary qp (qp.ppr.stemWordPorter t)).length
                  entry.2.length))
              acc := by
        simp only [tfidfTermStep]
        rw [if_pos hg, if_neg hd]
      obtain ⟨hsup, hscore, hinv⟩ :=
        scoreFold_char
          (fun e => tfWeight qp.collectionSize
            (getTermDocumentDictionary qp (qp.ppr.stemWordPorter t)).length e.2.length)
          (getTermDocumentDictionary qp (qp.ppr.stemWordPorter t)) acc h0
      rw [hstep]
      refine ⟨?_, ?_, hinv⟩
      · rw [hsup, if_pos hqual]
        rfl
      · intro d
        rw [hscore d]
        congr 1
        simp only [getTermDocumentDictionary]
        rw [filter_key_map_sum _ _ hnodup d]
        rw [specContribution]
        simp only [docsOf]
        by_cases hmem : d ∈ ((qp.postingsOf (qp.ppr.stemWordPorter t)).map Prod.fst).toFinset
        · rw [if_pos hmem, if_pos ⟨hqual, hmem⟩]
        · rw [if_neg hmem, if_neg (fun hh => hmem hh.2)]
  · have hqual : ¬ termQualifies qp t := fun hq => hg ⟨hq.1, hq.2.1⟩
    have hstep : tfidfTermStep qp acc t = acc := by
      simp only [tfidfTermStep]
      rw [if_neg hg]
    rw [hstep]
    exact ⟨by simp [hqual], fun d => by simp [specContribution, hqual], h0⟩

lemma tfidf_fold_char (qp : QueryProcessor) :
    ∀ (ts : List Str) (acc : ScoreMap),
      (∀ t ∈ ts, ((qp.postingsOf (qp.ppr.stemWordPorter t)).map Prod.fst).Nodup) →
      (∀ d, d ∉ acc.support → acc.score d = 0) →
      ((ts.foldl (tfidfTermStep qp) acc).support
          = acc.support ∪
              ts.foldr (fun t u => (if termQualifies qp t then docsOf qp t else ∅) ∪ u) ∅) ∧
        (∀ d, (ts.foldl (tfidfTermStep qp) acc).score d
          = acc.score d + (ts.map fun t => specContribution qp t d).sum) ∧
        (∀ d, d ∉ (ts.foldl (tfidfTermStep qp) acc).support →
          (ts.foldl (tfidfTermStep qp) acc).score d = 0) := by
  intro ts
  induction ts with
  | nil =>
    intro acc _ h0
    exact ⟨by simp, fun d => by simp, h0⟩
  | cons t ts ih =>
    intro acc hnodup h0
    obtain ⟨hssup, hsscore, hsinv⟩ :=
      tfidfTermStep_char qp acc t (hnodup t (List.mem_cons_self _ _)) h0
    obtain ⟨ihsup, ihscore, ihinv⟩ :=
      ih (tfidfTermStep qp acc t) (fun u hu => hnodup u (List.mem_cons_of_mem _ hu)) hsinv
    refine ⟨?_, ?_, by simpa [List.foldl_cons] using ihinv⟩
    · rw [List.foldl_cons, ihsup, hssup, List.foldr_cons, Finset.union_assoc]
    · intro d
      rw [List.foldl_cons, ihscore d, hsscore d, List.map_cons, List.sum_cons, add_assoc]

/-- C2 counterexample: with collection size 3 and the term `cat` occurring in
2 documents with a single position each, the claimed per-document score is
`(1 + log10 1) * log10 (3 / 2)`, which is positive; the code computes the
quotient with Python 2 integer floor division, `3 / 2 = 1`, whence a score of
0 for document 1. -/
theorem C2_counterexample :
    (calculateTFIDF qpW ['c', 'a', 't']).score 1 ≠
      (1 + Real.logb 10 (1 : ℝ)) * Real.logb 10 ((3 : ℝ) / 2) := by
  have h1 : (calculateTFIDF qpW ['c', 'a', 't']).score 1 = tfWeight 3 2 1 := rfl
  have hscore : (calculateTFIDF qpW ['c', 'a', 't']).score 1 = 0 := by
    rw [h1, tfWeight]
    norm_num
  rw [hscore]
  intro hcon
  have hpos : 0 < Real.logb 10 ((3 : ℝ) / 2) := Real.logb_pos (by norm_num) (by norm_num)
  rw [Real.logb_one] at hcon
  have hco : (1 + (0 : ℝ)) * Real.logb 10 ((3 : ℝ) / 2) = Real.logb 10 ((3 : ℝ) / 2) := by
    ring
  rw [hco] at hcon
  linarith

/-- C2 (amended): for every free-text query, the result mapping's keys are
exactly the documents containing at least one query token that is non-empty,
not a stop-word, and present in the index after stemming; each such
document's score is the sum over those tokens of
`(1 + log10 tf) * log10 (collectionSize // df)` where `//` is the integer
floor division that Python 2 performs; untouched documents are absent (their
score stays at the omitted default 0). -/
theorem C2_tfidf_scores (qp : QueryProcessor) (q : Str) (ts : List Str)
    (htok : qp.ppr.tokenize (qp.ppr.toLowerCase q) = ts)
    (hnodup : ∀ t ∈ ts, ((qp.postingsOf (qp.ppr.stemWordPorter t)).map Prod.fst).Nodup) :
    (calculateTFIDF qp q).support
        = ts.foldr (fun t u => (if termQualifies qp t then docsOf qp t else ∅) ∪ u) ∅ ∧
      ∀ d, (calculateTFIDF qp q).score d = (ts.map fun t => specContribution qp t d).sum := by
  obtain ⟨hsup, hscore, _⟩ :=
    tfidf_fold_char qp ts ⟨∅, fun _ => 0⟩ hnodup (fun d _ => rfl)
  rw [calculateTFIDF, htok]
  exact ⟨by rw [hsup]; simp, fun d => by rw [hscore d]; simp⟩

/-- Concrete instantiation of C2 (amended) on the sample index. -/
theorem C2_witness :
    (calculateTFIDF qpW ['c', 'a', 't']).support
        = ([['c', 'a', 't']].foldr
            (fun t u => (if termQualifies qpW t then docsOf qpW t else ∅) ∪ u) ∅) ∧
      ∀ d, (calculateTFIDF qpW ['c', 'a', 't']).score d
        = ([['c', 'a', 't']].map fun t => specContribution qpW t d).sum :=
  C2_tfidf_scores qpW ['c', 'a', 't'] [['c', 'a', 't']] (by decide) (by decide)

/-! ### Phrase queries read only the first two words -/

lemma filter_all {p : Char → Bool} : ∀ (l : Str), (∀ c ∈ l, p c = true) → l.filter p = l := by
  intro l h
  induction l with
  | nil => rfl
  | cons c rest ih =>
    rw [List.filter_cons, if_pos (h c (List.mem_cons_self _ _)),
      ih fun c hc => h c (List.mem_cons_of_mem _ hc)]

lemma map_id_of {f : Char → Char} : ∀ (l : Str), (∀ c ∈ l, f c = c) → l.map f = l := by
  intro l h
  induction l with
  | nil => rfl
  | cons c rest ih =>
    rw [List.map_cons, h c (List.mem_cons_self _ _),
      ih fun c hc => h c (List.mem_cons_of_mem _ hc)]

lemma phraseHandler_words (qp : QueryProcessor) (w1 w2 tail : Str)
    (h1 : ∀ c ∈ w1, c ≠ ' ' ∧ c ≠ ',' ∧ c ≠ '"')
    (h2 : ∀ c ∈ w2, c ≠ ' ' ∧ c ≠ ',' ∧ c ≠ '"')
    (htail : tail = [] ∨ ∃ t', tail = ' ' :: t') :
    phraseHandler qp ('"' :: (w1 ++ ' ' :: (w2 ++ tail)) ++ ['"'])
      = proximityMerge qp (strip w1) (strip w2) 1 true := by
  have hc1 : (',' : Char) ∉ w1 := fun hm => (h1 ',' hm).2.1 rfl
  have hc2 : (',' : Char) ∉ w2 := fun hm => (h2 ',' hm).2.1 rfl
  have hfq1 : ∀ c ∈ w1, (c != '"') = true := fun c hc => by
    simp [bne_iff_ne, (h1 c hc).2.2]
  have hfq2 : ∀ c ∈ w2, (c != '"') = true := fun c hc => by
    simp [bne_iff_ne, (h2 c hc).2.2]
  have hm1 : ∀ c ∈ w1, (if c = ' ' then ',' else c) = c := fun c hc => if_neg (h1 c hc).1
  have hm2 : ∀ c ∈ w2, (if c = ' ' then ',' else c) = c := fun c hc => if_neg (h2 c hc).1
  simp only [phraseHandler]
  have hfilter : List.filter (fun c => c != '"') ('"' :: (w1 ++ ' ' :: (w2 ++ tail)) ++ ['"'])
      = w1 ++ ' ' :: (w2 ++ List.filter (fun c => c != '"') tail) := by
    have e1 : ('"' :: (w1 ++ ' ' :: (w2 ++ tail)) ++ ['"'])
        = '"' :: ((w1 ++ ' ' :: (w2 ++ tail)) ++ ['"']) := rfl
    rw [e1, List.filter_cons, if_neg (by decide), List.filter_append, List.filter_append,
      filter_all w1 hfq1, List.filter_cons, if_pos (by decide), List.filter_append,
      filter_all w2 hfq2]
    simp
  have hmap : List.map (fun c => if c = ' ' then ',' else c)
        (w1 ++ ' ' :: (w2 ++ List.filter (fun c => c != '"') tail))
      = w1 ++ ',' :: (w2 ++ List.map (fun c => if c = ' ' then ',' else c)
          (List.filter (fun c => c != '"') tail)) := by
    rw [List.map_append, List.map_cons, List.map_append, map_id_of w1 hm1, map_id_of w2 hm2,
      if_pos rfl]
  rw [hfilter, hmap]
  rcases htail with rfl | ⟨t', rfl⟩
  · have e2 : w1 ++ ',' :: (w2 ++ List.map (fun c => if c = ' ' then ',' else c)
        (List.filter (fun c => c != '"') ([] : Str))) = w1 ++ ',' :: w2 := by
      simp
    rw [e2]
    exact proximityHandler_pair qp 1 true hc1 hc2
  · have e3 : List.map (fun c => if c = ' ' then ',' else c)
        (List.filter (fun c => c != '"') (' ' :: t'))
        = ',' :: List.map (fun c => if c = ' ' then ',' else c)
            (List.filter (fun c => c != '"') t') := by
      rw [List.filter_cons, if_pos (by decide), List.map_cons, if_pos rfl]
    rw [e3]
    have hsf : splitFirst [','] (w1 ++ ',' :: (w2 ++ ',' ::
        List.map (fun c => if c = ' ' then ',' else c) (List.filter (fun c => c != '"') t')))
        = some (w1, w2 ++ ',' ::
            List.map (fun c => if c = ' ' then ',' else c) (List.filter (fun c => c != '"') t')) := by
      have hshape : w1 ++ ',' :: (w2 ++ ',' ::
          List.map (fun c => if c = ' ' then ',' else c) (List.filter (fun c => c != '"') t'))
          = w1 ++ (',' :: ([] : Str)) ++ (w2 ++ ',' ::
              List.map (fun c => if c = ' ' then ',' else c) (List.filter (fun c => c != '"') t')) := by
        simp
      rw [hshape]
      exact splitFirst_append_pat hc1
    have hsf2 : splitFirst [','] (w2 ++ ',' ::
        List.map (fun c => if c = ' ' then ',' else c) (List.filter (fun c => c != '"') t'))
        = some (w2, List.map (fun c => if c = ' ' then ',' else c)
            (List.filter (fun c => c != '"') t')) := by
      have hshape : w2 ++ ',' ::
          List.map (fun c => if c = ' ' then ',' else c) (List.filter (fun c => c != '"') t')
          = w2 ++ (',' :: ([] : Str)) ++
              List.map (fun c => if c = ' ' then ',' else c) (List.filter (fun c => c != '"') t') := by
        simp
      rw [hshape]
      exact splitFirst_append_pat hc2
    simp only [proximityHandler, splitAll_field0 hsf,
      splitAll_field1_some (by simp) hsf hsf2, Option.getD_some]

/-- C9: a quoted phrase of three or more words matches only its first two
words: `phraseHandler` turns every space into a comma and `proximityHandler`
reads only the first two comma-separated terms, so the result equals the
two-word phrase match of the first two words, the remaining words being
silently ignored. -/
theorem C9_phrase_first_two_words (qp : QueryProcessor) (w1 w2 rest : Str)
    (h1 : ∀ c ∈ w1, c ≠ ' ' ∧ c ≠ ',' ∧ c ≠ '"')
    (h2 : ∀ c ∈ w2, c ≠ ' ' ∧ c ≠ ',' ∧ c ≠ '"') :
    phraseHandler qp ('"' :: (w1 ++ ' ' :: (w2 ++ ' ' :: rest)) ++ ['"'])
      = phraseHandler qp ('"' :: (w1 ++ ' ' :: w2) ++ ['"']) := by
  rw [phraseHandler_words qp w1 w2 (' ' :: rest) h1 h2 (Or.inr ⟨rest, rfl⟩)]
  rw [show ('"' :: (w1 ++ ' ' :: w2) ++ ['"'])
      = ('"' :: (w1 ++ ' ' :: (w2 ++ ([] : Str))) ++ ['"']) from by simp]
  rw [phraseHandler_words qp w1 w2 [] h1 h2 (Or.inl rfl)]

/-- Concrete instantiation of C9: the three-word phrase `cat dog u` matches
exactly like the two-word phrase `cat dog`. -/
theorem C9_witness :
    phraseHandler qpW ('"' :: (['c', 'a', 't'] ++ ' ' :: (['d', 'o', 'g'] ++ ' ' :: ['u'])) ++ ['"'])
      = phraseHandler qpW ('"' :: (['c', 'a', 't'] ++ ' ' :: ['d', 'o', 'g']) ++ ['"']) :=
  C9_phrase_first_two_words qpW ['c', 'a', 't'] ['d', 'o', 'g'] ['u'] (by decide) (by decide)

end IRQP
